import Mathlib

/-!
Verification development for the `rich` Go package (rich.go): a terminal
text-styling and structured-value pretty-printer.  The definitions below are a
shallow embedding of the source: strings are worked on as their underlying
`List Char`, Go's `strings.Split` / `strings.SplitN` / `strings.Fields` /
`strings.Trim` / `strings.ToLower` are modelled character by character, and the
reflection-based value formatter is modelled over a deep datatype `GoValue` of
the runtime shapes the formatter dispatches on (integers, booleans, strings,
slices, maps, structs, and the nil interface).  Go map iteration order is
nondeterministic, so the keyword table of `colorizeKeywords` is threaded as an
explicit order parameter ranging over permutations of the four entries.
-/

/-- The `Style` record of rich.go: name, escape code digits, color flag. -/
structure Style where
  Name : String
  Code : String
  IsColor : Bool
  deriving DecidableEq

/-- The fixed style registry (the `styles` slice of rich.go). -/
def styles : List Style :=
  [⟨"reset", "0", false⟩,
   ⟨"unstyle", "22", false⟩,
   ⟨"b", "1", false⟩,
   ⟨"i", "3", false⟩,
   ⟨"u", "4", false⟩,
   ⟨"s", "9", false⟩,
   ⟨"blink", "5", false⟩,
   ⟨"x", "7", false⟩,
   ⟨"white", "97", true⟩,
   ⟨"gray", "37", true⟩,
   ⟨"red", "31", true⟩,
   ⟨"green", "32", true⟩,
   ⟨"cyan", "36", true⟩,
   ⟨"blue", "34", true⟩,
   ⟨"yellow", "33", true⟩]

/-- Lookup in `styleMap` (the map built by `init` from `styles`; names are
unique, so first match equals Go map lookup).  The key is a list of chars
because `parseTags` looks up processed tag tokens. -/
def styleMapFind (name : List Char) : Option Style :=
  styles.find? (fun st => st.Name.data = name)

/-- `getStyle` of rich.go: exact (case-sensitive) map lookup; a hit yields
`ESC [ code m`, a miss the fixed fallback `ESC [ 37 m`. -/
def getStyle (name : String) : String :=
  match styleMapFind name.data with
  | some st => "\x1b[" ++ st.Code ++ "m"
  | none => "\x1b[37m"

/-- Go `strings.Split(s, sep)` for a one-character separator, on char lists.
`splitOnChar c l` never returns `[]`; splitting the empty string gives
`[[]]`, matching Go. -/
def splitOnChar (c : Char) : List Char → List (List Char)
  | [] => [[]]
  | a :: rest =>
    let r := splitOnChar c rest
    if a = c then [] :: r
    else
      match r with
      | s :: ss => (a :: s) :: ss
      | [] => [[a]]

/-- Go `strings.SplitN(s, sep, 2)` for a one-character separator: `none` when
the separator does not occur (Go returns a one-element slice there, and
`parseTags` checks `len(parts) != 2`), otherwise the parts before and after
the first occurrence. -/
def splitN2 (c : Char) : List Char → Option (List Char × List Char)
  | [] => none
  | a :: rest =>
    if a = c then some ([], rest)
    else
      match splitN2 c rest with
      | some (pre, post) => some (a :: pre, post)
      | none => none

/-- Go `unicode.IsSpace` restricted to the characters that can occur here
(ASCII whitespace plus NEL and NBSP). -/
def goIsSpace (c : Char) : Bool :=
  c = ' ' || c = '\t' || c = '\n' || c = '\x0b' || c = '\x0c' || c = '\r' ||
  c = '\x85' || c = '\xa0'

/-- Worker for `fields`: `cur` is the current in-progress field, reversed. -/
def fieldsAux (cur : List Char) : List Char → List (List Char)
  | [] => if cur.isEmpty then [] else [cur.reverse]
  | c :: cs =>
    if goIsSpace c then
      if cur.isEmpty then fieldsAux [] cs else cur.reverse :: fieldsAux [] cs
    else fieldsAux (c :: cur) cs

/-- Go `strings.Fields`: split around runs of whitespace, no empty fields. -/
def fields (l : List Char) : List (List Char) := fieldsAux [] l

/-- Membership in the cutset of `strings.Trim(tag, "[]")`. -/
def isBracket (c : Char) : Bool := c = '[' || c = ']'

/-- Go `strings.Trim(s, "[]")`: strip leading and trailing brackets. -/
def trimBrackets (l : List Char) : List Char :=
  ((l.dropWhile isBracket).reverse.dropWhile isBracket).reverse

/-- Go `strings.ToLower` on one character, for the ASCII range (all registry
names and tag tokens of interest are ASCII). -/
def toLowerChar (c : Char) : Char :=
  if 'A' ≤ c && c ≤ 'Z' then Char.ofNat (c.toNat + 32) else c

/-- One iteration of the tag-token loop of `parseTags` (rich.go lines 69-78):
trim brackets, lower-case, then `/`-prefixed pops (no-op on the empty stack,
since Go guards with `len(stack) > 0` and `dropLast [] = []`), a registered
name pushes its code, and anything else is ignored. -/
def applyTag (stack : List String) (rawTag : List Char) : List String :=
  let tag := (trimBrackets rawTag).map toLowerChar
  if tag.head? = some '/' then stack.dropLast
  else
    match styleMapFind tag with
    | some st => stack ++ [st.Code]
    | none => stack

/-- `applyStyling` of rich.go: prefix the text with `ESC [ <stack joined by ;> m`. -/
def applyStyling (str : List Char) (stack : List String) : List Char :=
  '\x1b' :: '[' :: (String.intercalate ";" stack).data ++ 'm' :: str

/-- The per-segment loop of `parseTags` over `segments[1:]`, threading the
style stack.  A segment with no `]` is left unchanged (Go's `continue` skips
the `segments[i] = applyStyling(...)` assignment); otherwise the header tokens
are applied to the stack and the trailing text is styled with the full stack. -/
def processSegments (stack : List String) : List (List Char) → List (List Char)
  | [] => []
  | seg :: rest =>
    match splitN2 ']' seg with
    | none => seg :: processSegments stack rest
    | some (tags, txt) =>
      let stack2 := (fields tags).foldl applyTag stack
      applyStyling txt stack2 :: processSegments stack2 rest

/-- Concatenation of the processed segments (Go `strings.Join(segments, "")`). -/
def joinL : List (List Char) → List Char
  | [] => []
  | l :: ls => l ++ joinL ls

/-- `parseTags` of rich.go on char lists: split on `[`, keep the leading
segment unchanged, run the stack loop over the rest, join everything. -/
def parseTagsL (l : List Char) : List Char :=
  match splitOnChar '[' l with
  | [] => []
  | first :: rest => first ++ joinL (processSegments [] rest)

/-- `parseTags` of rich.go. -/
def parseTags (s : String) : String := String.mk (parseTagsL s.data)

/-- A word character in Go's regexp sense (`\w` = `[0-9A-Za-z_]`), which also
defines the word boundary `\b` used by `colorizeKeywords`. -/
def isWordChar (c : Char) : Bool :=
  ('0' ≤ c && c ≤ '9') || ('A' ≤ c && c ≤ 'Z') || ('a' ≤ c && c ≤ 'z') || c = '_'

/-- Case-insensitive literal prefix match: `kw` is the lower-case keyword; on
success returns the matched characters as written in the input and the rest. -/
def ciMatch : List Char → List Char → Option (List Char × List Char)
  | [], s => some ([], s)
  | _ :: _, [] => none
  | k :: ks, c :: cs =>
    if toLowerChar c = k then
      match ciMatch ks cs with
      | some (m, rest) => some (c :: m, rest)
      | none => none
    else none

/-- Whether a match of the all-word-character keyword may end here: end of
input or a non-word character (the trailing `\b`). -/
def endBoundary : List Char → Bool
  | [] => true
  | c :: _ => !(isWordChar c)

/-- One `re.ReplaceAllStringFunc` pass for the pattern `(?i)(\b<kw>\b)` with
replacement `color ++ match ++ ESC[0m`: leftmost, non-overlapping scan.
`skip` counts characters of an already-emitted match still to consume;
`prevWord` records whether the previous character is a word character (the
leading `\b`).  Keywords are nonempty and consist of word characters only, so
after a match the scan resumes past it with `prevWord = true`. -/
def replaceKwAux (kw color : List Char) : Nat → Bool → List Char → List Char
  | _ + 1, _, [] => []
  | skip + 1, _, _ :: cs => replaceKwAux kw color skip true cs
  | 0, _, [] => []
  | 0, prevWord, c :: cs =>
    if prevWord then c :: replaceKwAux kw color 0 (isWordChar c) cs
    else
      match ciMatch kw (c :: cs) with
      | some (m, rest) =>
        if endBoundary rest then
          color ++ m ++ ("\x1b[0m").data ++ replaceKwAux kw color (kw.length - 1) true cs
        else c :: replaceKwAux kw color 0 (isWordChar c) cs
      | none => c :: replaceKwAux kw color 0 (isWordChar c) cs

/-- One keyword pass of `colorizeKeywords`, starting at a word boundary. -/
def replaceKw (kw color s : List Char) : List Char := replaceKwAux kw color 0 false s

/-- The keyword table of `colorizeKeywords` in source order (a Go map literal;
iteration order is nondeterministic, see `colorizeKeywordsOrd`). -/
def keywordColors : List (String × String) :=
  [("success", getStyle ("green")),
   ("error", getStyle ("red")),
   ("warning", getStyle ("yellow")),
   ("info", getStyle ("cyan"))]

/-- `colorizeKeywords` of rich.go with the map iteration order made explicit:
the four find-and-replace passes run in the order given by `ord`, which ranges
over permutations of `keywordColors`. -/
def colorizeKeywordsOrd (ord : List (String × String)) (input : List Char) : List Char :=
  ord.foldl (fun s p => replaceKw p.1.data p.2.data s) input

/-- `formatString` of rich.go (for a string argument, `%v` is the string
itself): tag-parse, then keyword-highlight. -/
def formatStringOrd (ord : List (String × String)) (s : String) : String :=
  String.mk (colorizeKeywordsOrd ord (parseTagsL s.data))

/-- Decimal digits of a natural number, most significant first; `fuel` bounds
the recursion and `fuel = n + 1` always suffices. -/
def natDigitsAux : Nat → Nat → List Char → List Char
  | 0, _, acc => acc
  | fuel + 1, n, acc =>
    if n < 10 then Char.ofNat (48 + n) :: acc
    else natDigitsAux fuel (n / 10) (Char.ofNat (48 + n % 10) :: acc)

/-- Decimal representation of a natural number. -/
def natRepr (n : Nat) : String := String.mk (natDigitsAux (n + 1) n [])

/-- Go `fmt.Sprintf("%v", _)` for an integer: decimal, `-`-prefixed when
negative. -/
def intRepr : Int → String
  | Int.ofNat n => natRepr n
  | Int.negSucc n => "-" ++ natRepr (n + 1)

/-- `formatNumber` of rich.go (modelled for integer kinds). -/
def formatNumber (n : Int) : String :=
  parseTags ("[cyan][bold]" ++ intRepr n ++ "[/]")

/-- `formatBool` of rich.go. -/
def formatBool (b : Bool) : String :=
  if b then parseTags ("[green][bold]true[/]") else parseTags ("[red][bold]false[/]")

mutual

/-- Runtime values the formatter dispatches on, as a deep datatype: the
reflection kinds handled by `formatValue` plus `nil` for a nil interface
(whose `reflect.TypeOf` is nil, so `.Kind()` panics). -/
inductive GoValue : Type where
  | int : Int → GoValue
  | bool : Bool → GoValue
  | str : String → GoValue
  | slice : GoList → GoValue
  | gmap : GoPairs → GoValue
  | struct : GoFields → GoValue
  | nil : GoValue

/-- Elements of a slice value, in order. -/
inductive GoList : Type where
  | nil : GoList
  | cons : GoValue → GoList → GoList

/-- Entries of a map value, in the order `v.MapKeys()` happens to return. -/
inductive GoPairs : Type where
  | nil : GoPairs
  | cons : GoValue → GoValue → GoPairs → GoPairs

/-- Named fields of a struct value, in declared order. -/
inductive GoFields : Type where
  | nil : GoFields
  | cons : String → GoValue → GoFields → GoFields

end

mutual

/-- `formatValue` of rich.go: dispatch on the runtime kind.  A nil interface
is `none` (the Go code panics there: `reflect.TypeOf(v.Interface()).Kind()`
dereferences a nil `reflect.Type`); the panic aborts the whole call, which the
`Option` propagation models.  The map/slice/struct branches are
`formatMap` / `formatSlice` / `formatStruct` of rich.go with the builder
prologue/epilogue written around the entry loop (see the wrappers
`formatMapGo`, `formatSliceGo`, `formatStructGo` below). -/
def formatValue (ord : List (String × String)) : GoValue → Option String
  | GoValue.int n => some (formatNumber n)
  | GoValue.gmap ps =>
    (match formatMapEntries ord ps with
     | some body => some ("\x7b\n" ++ body ++ "\x7d")
     | none => none)
  | GoValue.slice l =>
    (match formatSliceElems ord l with
     | some body => some ("[ " ++ body ++ " ]")
     | none => none)
  | GoValue.struct fs =>
    (match formatStructFields ord fs with
     | some body => some ("\x7b\n" ++ body ++ "\x7d")
     | none => none)
  | GoValue.bool b => some (formatBool b)
  | GoValue.str s => some (formatStringOrd ord s)
  | GoValue.nil => none
termination_by structural v => v

/-- The entry loop of `formatMap`: each entry contributes
`  "<key>": <value>,` and a newline — the trailing comma is on every line,
the last included. -/
def formatMapEntries (ord : List (String × String)) : GoPairs → Option String
  | GoPairs.nil => some ""
  | GoPairs.cons k v rest =>
    match formatValue ord k, formatValue ord v, formatMapEntries ord rest with
    | some l, some r, some tail => some ("  \"" ++ l ++ "\": " ++ r ++ ",\n" ++ tail)
    | _, _, _ => none
termination_by structural ps => ps

/-- The element loop of `formatSlice`: `, ` after every element but the last. -/
def formatSliceElems (ord : List (String × String)) : GoList → Option String
  | GoList.nil => some ""
  | GoList.cons v GoList.nil => formatValue ord v
  | GoList.cons v (GoList.cons w rest) =>
    match formatValue ord v, formatSliceElems ord (GoList.cons w rest) with
    | some s, some t => some (s ++ ", " ++ t)
    | _, _ => none
termination_by structural l => l

/-- The field loop of `formatStruct`. -/
def formatStructFields (ord : List (String × String)) : GoFields → Option String
  | GoFields.nil => some ""
  | GoFields.cons name v rest =>
    match formatValue ord v, formatStructFields ord rest with
    | some s, some t => some (" " ++ parseTags name ++ ": " ++ s ++ "\n" ++ t)
    | _, _ => none
termination_by structural fs => fs

end

/-- `formatMap` of rich.go: `\x7b` newline, the entry lines, `\x7d` (the
map branch of `formatValue`, as a standalone function). -/
def formatMapGo (ord : List (String × String)) (ps : GoPairs) : Option String :=
  match formatMapEntries ord ps with
  | some body => some ("\x7b\n" ++ body ++ "\x7d")
  | none => none

/-- `formatSlice` of rich.go: `[ `, the elements joined by `, `, ` ]`. -/
def formatSliceGo (ord : List (String × String)) (l : GoList) : Option String :=
  match formatSliceElems ord l with
  | some body => some ("[ " ++ body ++ " ]")
  | none => none

/-- `formatStruct` of rich.go: `\x7b` newline, one ` name: value` line per
field (no commas), `\x7d`. -/
def formatStructGo (ord : List (String × String)) (fs : GoFields) : Option String :=
  match formatStructFields ord fs with
  | some body => some ("\x7b\n" ++ body ++ "\x7d")
  | none => none

mutual

/-- A value is concrete (introspectable) when no nil interface occurs in it. -/
def concreteV : GoValue → Bool
  | GoValue.nil => false
  | GoValue.int _ => true
  | GoValue.bool _ => true
  | GoValue.str _ => true
  | GoValue.slice l => concreteL l
  | GoValue.gmap ps => concreteP ps
  | GoValue.struct fs => concreteF fs
termination_by structural v => v

/-- All elements concrete. -/
def concreteL : GoList → Bool
  | GoList.nil => true
  | GoList.cons v rest => concreteV v && concreteL rest
termination_by structural l => l

/-- All keys and values concrete. -/
def concreteP : GoPairs → Bool
  | GoPairs.nil => true
  | GoPairs.cons k v rest => concreteV k && concreteV v && concreteP rest
termination_by structural ps => ps

/-- All field values concrete. -/
def concreteF : GoFields → Bool
  | GoFields.nil => true
  | GoFields.cons _ v rest => concreteV v && concreteF rest
termination_by structural fs => fs

end

/-- Formatted key/value strings of the entries, `none` as soon as any entry
fails; a specification-side helper for stating the map line format. -/
def pairStrings (ord : List (String × String)) : GoPairs → Option (List (String × String))
  | GoPairs.nil => some []
  | GoPairs.cons k v rest =>
    match formatValue ord k, formatValue ord v, pairStrings ord rest with
    | some l, some r, some t => some ((l, r) :: t)
    | _, _, _ => none

/-- All ways to insert `a` into a list (helper for `permsOf`). -/
def insertEverywhere (a : String × String) : List (String × String) → List (List (String × String))
  | [] => [[a]]
  | b :: rest => (a :: b :: rest) :: (insertEverywhere a rest).map (fun l => b :: l)

/-- All permutations of a list of keyword/color pairs, used to quantify over
the nondeterministic Go map iteration order of `colorizeKeywords`. -/
def permsOf : List (String × String) → List (List (String × String))
  | [] => [[]]
  | a :: rest => (permsOf rest).flatMap (insertEverywhere a)

/-! ### Lemmas about the splitting primitives -/

/-- `splitOnChar` never returns the empty list of segments. -/
theorem splitOnChar_ne_nil (c : Char) (l : List Char) : splitOnChar c l ≠ [] := by
  cases l with
  | nil => simp [splitOnChar]
  | cons a rest =>
    simp only [splitOnChar]
    by_cases h : a = c
    · simp [h]
    · simp only [if_neg h]
      cases splitOnChar c rest with
      | nil => simp
      | cons s ss => simp

/-- Splitting a string that starts with the separator yields a leading empty
segment. -/
theorem splitOnChar_cons_self (c : Char) (l : List Char) :
    splitOnChar c (c :: l) = [] :: splitOnChar c l := by
  simp [splitOnChar]

/-- A string without the separator is a single segment. -/
theorem splitOnChar_of_not_mem (c : Char) (l : List Char) (h : ∀ x ∈ l, x ≠ c) :
    splitOnChar c l = [l] := by
  induction l with
  | nil => rfl
  | cons a rest ih =>
    have ha : a ≠ c := h a (by simp)
    have hrest : ∀ x ∈ rest, x ≠ c := fun x hx => h x (by simp [hx])
    simp only [splitOnChar, if_neg ha, ih hrest]

/-- Prepending separator-free text extends the first segment. -/
theorem splitOnChar_append (c : Char) (xs ys : List Char) (s : List Char)
    (ss : List (List Char)) (hxs : ∀ x ∈ xs, x ≠ c)
    (h : splitOnChar c ys = s :: ss) :
    splitOnChar c (xs ++ ys) = (xs ++ s) :: ss := by
  induction xs with
  | nil => simpa using h
  | cons a as ih =>
    have ha : a ≠ c := hxs a (by simp)
    have has : ∀ x ∈ as, x ≠ c := fun x hx => hxs x (by simp [hx])
    simp only [List.cons_append, splitOnChar, List.append_eq, if_neg ha, ih has]

/-- `splitN2` misses iff the separator is absent. -/
theorem splitN2_of_not_mem (c : Char) (l : List Char) (h : ∀ x ∈ l, x ≠ c) :
    splitN2 c l = none := by
  induction l with
  | nil => rfl
  | cons a rest ih =>
    have ha : a ≠ c := h a (by simp)
    have hrest : ∀ x ∈ rest, x ≠ c := fun x hx => h x (by simp [hx])
    simp only [splitN2, if_neg ha, ih hrest]

/-- `splitN2` splits at the first occurrence of the separator. -/
theorem splitN2_append (c : Char) (xs ys : List Char) (hxs : ∀ x ∈ xs, x ≠ c) :
    splitN2 c (xs ++ c :: ys) = some (xs, ys) := by
  induction xs with
  | nil => simp [splitN2]
  | cons a as ih =>
    have ha : a ≠ c := hxs a (by simp)
    have has : ∀ x ∈ as, x ≠ c := fun x hx => hxs x (by simp [hx])
    simp only [List.cons_append, splitN2, List.append_eq, if_neg ha, ih has]

/-- Rejoining the segments of a split recovers the string minus every
occurrence of the separator. -/
theorem joinL_splitOnChar (c : Char) (l : List Char) :
    joinL (splitOnChar c l) = l.filter (fun x => x ≠ c) := by
  induction l with
  | nil => simp [splitOnChar, joinL]
  | cons a rest ih =>
    by_cases ha : a = c
    · subst ha
      simp only [splitOnChar_cons_self, joinL, List.nil_append, ih]
      simp [List.filter]
    · simp only [splitOnChar, if_neg ha]
      cases hs : splitOnChar c rest with
      | nil => exact absurd hs (splitOnChar_ne_nil c rest)
      | cons s ss =>
        have : joinL ((a :: s) :: ss) = a :: joinL (s :: ss) := by simp [joinL]
        rw [this, ← hs, ih]
        simp [List.filter, ha]

/-- Segments without `]` pass through the segment loop unchanged (and the
stack is irrelevant). -/
theorem processSegments_of_no_close (stack : List String) (segs : List (List Char))
    (h : ∀ seg ∈ segs, ∀ x ∈ seg, x ≠ ']') :
    processSegments stack segs = segs := by
  induction segs generalizing stack with
  | nil => rfl
  | cons seg rest ih =>
    have hseg : splitN2 ']' seg = none :=
      splitN2_of_not_mem ']' seg (h seg (by simp))
    have hrest : ∀ s ∈ rest, ∀ x ∈ s, x ≠ ']' := fun s hs => h s (by simp [hs])
    simp only [processSegments, hseg, ih stack hrest]

/-- Every character of a segment is a character of the split string. -/
theorem mem_of_mem_splitOnChar (c x : Char) (l : List Char) (seg : List Char)
    (hseg : seg ∈ splitOnChar c l) (hx : x ∈ seg) : x ∈ l := by
  induction l generalizing seg with
  | nil =>
    simp only [splitOnChar, List.mem_singleton] at hseg
    subst hseg
    exact absurd hx (by simp)
  | cons a rest ih =>
    by_cases ha : a = c
    · subst ha
      rw [splitOnChar_cons_self] at hseg
      rcases List.mem_cons.mp hseg with h1 | h2
      · subst h1; exact absurd hx (by simp)
      · exact List.mem_cons_of_mem a (ih seg h2 hx)
    · simp only [splitOnChar, if_neg ha] at hseg
      cases hs : splitOnChar c rest with
      | nil => exact absurd hs (splitOnChar_ne_nil c rest)
      | cons s ss =>
        rw [hs] at hseg
        rcases List.mem_cons.mp hseg with h1 | h2
        · subst h1
          rcases List.mem_cons.mp hx with h3 | h4
          · simp [h3]
          · exact List.mem_cons_of_mem a (ih s (by simp [hs]) h4)
        · exact List.mem_cons_of_mem a (ih seg (by simp [hs, h2]) hx)

/-- Decimal digit characters avoid the tag delimiters. -/
theorem digitChar_ne (m : Nat) (hm : m < 10) :
    Char.ofNat (48 + m) ≠ '[' ∧ Char.ofNat (48 + m) ≠ ']' := by
  interval_cases m <;> exact ⟨by decide, by decide⟩

/-- The characters produced by `natDigitsAux` avoid the tag delimiters. -/
theorem natDigitsAux_ne (fuel n : Nat) (acc : List Char)
    (hacc : ∀ x ∈ acc, x ≠ '[' ∧ x ≠ ']') :
    ∀ x ∈ natDigitsAux fuel n acc, x ≠ '[' ∧ x ≠ ']' := by
  induction fuel generalizing n acc with
  | zero => simpa [natDigitsAux] using hacc
  | succ fuel ih =>
    simp only [natDigitsAux]
    by_cases h : n < 10
    · simp only [if_pos h]
      intro x hx
      rcases List.mem_cons.mp hx with h1 | h2
      · subst h1; exact digitChar_ne n h
      · exact hacc x h2
    · simp only [if_neg h]
      refine ih (n / 10) _ ?_
      intro x hx
      rcases List.mem_cons.mp hx with h1 | h2
      · subst h1; exact digitChar_ne (n % 10) (Nat.mod_lt n (by norm_num))
      · exact hacc x h2

/-- The characters of the decimal rendering of an integer avoid the tag
delimiters. -/
theorem intRepr_ne (n : Int) : ∀ x ∈ (intRepr n).data, x ≠ '[' ∧ x ≠ ']' := by
  cases n with
  | ofNat m => exact natDigitsAux_ne (m + 1) m [] (by simp)
  | negSucc m =>
    intro x hx
    simp only [intRepr] at hx
    have : ("-" ++ natRepr (m + 1)).data = '-' :: (natRepr (m + 1)).data := rfl
    rw [this] at hx
    rcases List.mem_cons.mp hx with h1 | h2
    · subst h1; exact ⟨by decide, by decide⟩
    · exact natDigitsAux_ne (m + 2) (m + 1) [] (by simp) x h2


/-- Expanding `[cyan][bold]<r>[/]` for `[`-free text `r`: the `bold` token is
not in the registry (the registered name is `b`), so only the cyan code `36`
reaches the stack; the text run is prefixed with `ESC[36m` and the final pop
leaves the empty-stack prefix `ESC[m`. -/
theorem parseTagsL_cyan_bold (r : List Char) (h1 : ∀ x ∈ r, x ≠ '[') :
    parseTagsL ('[' :: 'c' :: 'y' :: 'a' :: 'n' :: ']' :: '[' :: 'b' :: 'o' :: 'l' :: 'd' :: ']' :: (r ++ ['[', '/', ']']))
      = '\x1b' :: '[' :: '3' :: '6' :: 'm' :: '\x1b' :: '[' :: '3' :: '6' :: 'm' :: (r ++ ['\x1b', '[', 'm']) := by
  have e1 : splitOnChar '[' ['[', '/', ']'] = [[], ['/', ']']] := rfl
  have hbold : ∀ x ∈ ['b', 'o', 'l', 'd', ']'] ++ r, x ≠ '[' := by
    intro x hx
    rcases List.mem_append.mp hx with h | h
    · fin_cases h <;> decide
    · exact h1 x h
  have e2 : splitOnChar '[' ((['b', 'o', 'l', 'd', ']'] ++ r) ++ ['[', '/', ']'])
      = (['b', 'o', 'l', 'd', ']'] ++ r) :: [['/', ']']] := by
    have h := splitOnChar_append '[' (['b', 'o', 'l', 'd', ']'] ++ r) ['[', '/', ']']
      [] ([['/', ']']]) hbold e1
    simpa using h
  have e3 : splitOnChar '[' ('[' :: ((['b', 'o', 'l', 'd', ']'] ++ r) ++ ['[', '/', ']']))
      = [] :: (['b', 'o', 'l', 'd', ']'] ++ r) :: [['/', ']']] := by
    rw [splitOnChar_cons_self, e2]
  have e4 : splitOnChar '[' (['c', 'y', 'a', 'n', ']'] ++ ('[' :: ((['b', 'o', 'l', 'd', ']'] ++ r) ++ ['[', '/', ']'])))
      = ['c', 'y', 'a', 'n', ']'] :: (['b', 'o', 'l', 'd', ']'] ++ r) :: [['/', ']']] := by
    have h := splitOnChar_append '[' (['c', 'y', 'a', 'n', ']'])
      ('[' :: ((['b', 'o', 'l', 'd', ']'] ++ r) ++ ['[', '/', ']']))
      [] ((['b', 'o', 'l', 'd', ']'] ++ r) :: [['/', ']']])
      (by intro x hx; fin_cases hx <;> decide) e3
    simpa using h
  have eL : '[' :: 'c' :: 'y' :: 'a' :: 'n' :: ']' :: '[' :: 'b' :: 'o' :: 'l' :: 'd' :: ']' :: (r ++ ['[', '/', ']'])
      = '[' :: (['c', 'y', 'a', 'n', ']'] ++ ('[' :: ((['b', 'o', 'l', 'd', ']'] ++ r) ++ ['[', '/', ']']))) := by
    simp
  rw [eL]
  unfold parseTagsL
  rw [splitOnChar_cons_self, e4]
  have s1 : splitN2 ']' ['c', 'y', 'a', 'n', ']'] = some (['c', 'y', 'a', 'n'], []) := rfl
  have s2 : splitN2 ']' (['b', 'o', 'l', 'd', ']'] ++ r) = some (['b', 'o', 'l', 'd'], r) := by
    have h : (['b', 'o', 'l', 'd', ']'] ++ r) = ['b', 'o', 'l', 'd'] ++ (']' :: r) := rfl
    rw [h]
    exact splitN2_append ']' ['b', 'o', 'l', 'd'] r (by intro x hx; fin_cases hx <;> decide)
  have s3 : splitN2 ']' ['/', ']'] = some (['/'], []) := rfl
  simp only [processSegments, s1, s2, s3]
  have f1 : List.foldl applyTag [] (fields ['c', 'y', 'a', 'n']) = ["36"] := rfl
  have f2 : List.foldl applyTag ["36"] (fields ['b', 'o', 'l', 'd']) = ["36"] := rfl
  have f3 : List.foldl applyTag ["36"] (fields ['/']) = [] := rfl
  rw [f1, f2, f3]
  have a1 : applyStyling [] ["36"] = ['\x1b', '[', '3', '6', 'm'] := rfl
  have a2 : applyStyling r ["36"] = '\x1b' :: '[' :: '3' :: '6' :: 'm' :: r := rfl
  have a3 : applyStyling [] ([] : List String) = ['\x1b', '[', 'm'] := rfl
  rw [a1, a2, a3]
  simp [joinL]

mutual

theorem formatValue_isSome (ord : List (String × String)) :
    (v : GoValue) → concreteV v = true → (formatValue ord v).isSome = true
  | GoValue.int n, _ => by simp [formatValue]
  | GoValue.bool b, _ => by simp [formatValue]
  | GoValue.str s, _ => by simp [formatValue]
  | GoValue.gmap ps, h => by
    have hp : concreteP ps = true := by simpa [concreteV] using h
    obtain ⟨body, hb⟩ := Option.isSome_iff_exists.mp (formatMapEntries_isSome ord ps hp)
    simp [formatValue, hb]
  | GoValue.slice l, h => by
    have hl : concreteL l = true := by simpa [concreteV] using h
    obtain ⟨body, hb⟩ := Option.isSome_iff_exists.mp (formatSliceElems_isSome ord l hl)
    simp [formatValue, hb]
  | GoValue.struct fs, h => by
    have hf : concreteF fs = true := by simpa [concreteV] using h
    obtain ⟨body, hb⟩ := Option.isSome_iff_exists.mp (formatStructFields_isSome ord fs hf)
    simp [formatValue, hb]
termination_by structural v => v

theorem formatMapEntries_isSome (ord : List (String × String)) :
    (ps : GoPairs) → concreteP ps = true → (formatMapEntries ord ps).isSome = true
  | GoPairs.nil, _ => by simp [formatMapEntries]
  | GoPairs.cons k v rest, h => by
    have hk : concreteV k = true := by
      have := h; simp [concreteP, Bool.and_eq_true] at this; exact this.1.1
    have hv : concreteV v = true := by
      have := h; simp [concreteP, Bool.and_eq_true] at this; exact this.1.2
    have hr : concreteP rest = true := by
      have := h; simp [concreteP, Bool.and_eq_true] at this; exact this.2
    obtain ⟨a, ha⟩ := Option.isSome_iff_exists.mp (formatValue_isSome ord k hk)
    obtain ⟨b, hb⟩ := Option.isSome_iff_exists.mp (formatValue_isSome ord v hv)
    obtain ⟨t, ht⟩ := Option.isSome_iff_exists.mp (formatMapEntries_isSome ord rest hr)
    simp [formatMapEntries, ha, hb, ht]
termination_by structural ps => ps

theorem formatSliceElems_isSome (ord : List (String × String)) :
    (l : GoList) → concreteL l = true → (formatSliceElems ord l).isSome = true
  | GoList.nil, _ => by simp [formatSliceElems]
  | GoList.cons v GoList.nil, h => by
    have hv : concreteV v = true := by
      have := h; simp [concreteL, Bool.and_eq_true] at this; exact this
    simpa [formatSliceElems] using formatValue_isSome ord v hv
  | GoList.cons v (GoList.cons w rest), h => by
    have hv : concreteV v = true := by
      have := h; simp [concreteL, Bool.and_eq_true] at this; exact this.1
    have hr : concreteL (GoList.cons w rest) = true := by
      have := h; simp [concreteL, Bool.and_eq_true] at this
      simp [concreteL, Bool.and_eq_true, this.2.1, this.2.2]
    obtain ⟨a, ha⟩ := Option.isSome_iff_exists.mp (formatValue_isSome ord v hv)
    obtain ⟨t, ht⟩ := Option.isSome_iff_exists.mp (formatSliceElems_isSome ord (GoList.cons w rest) hr)
    simp [formatSliceElems, ha, ht]
termination_by structural l => l

theorem formatStructFields_isSome (ord : List (String × String)) :
    (fs : GoFields) → concreteF fs = true → (formatStructFields ord fs).isSome = true
  | GoFields.nil, _ => by simp [formatStructFields]
  | GoFields.cons name v rest, h => by
    have hv : concreteV v = true := by
      have := h; simp [concreteF, Bool.and_eq_true] at this; exact this.1
    have hr : concreteF rest = true := by
      have := h; simp [concreteF, Bool.and_eq_true] at this; exact this.2
    obtain ⟨a, ha⟩ := Option.isSome_iff_exists.mp (formatValue_isSome ord v hv)
    obtain ⟨t, ht⟩ := Option.isSome_iff_exists.mp (formatStructFields_isSome ord rest hr)
    simp [formatStructFields, ha, ht]
termination_by structural fs => fs

end

/-- `formatNumber` for any integer: only the cyan code `36` appears in the
escape prefixes — `bold` is not a registered style name, so it contributes
nothing to the stack. -/
theorem formatNumber_eq (n : Int) :
    formatNumber n = "\x1b[36m" ++ ("\x1b[36m" ++ (intRepr n ++ "\x1b[m")) := by
  have h1 : ∀ x ∈ (intRepr n).data, x ≠ '[' := fun x hx => (intRepr_ne n x hx).1
  have hdata : ("[cyan][bold]" ++ intRepr n ++ "[/]").data
      = '[' :: 'c' :: 'y' :: 'a' :: 'n' :: ']' :: '[' :: 'b' :: 'o' :: 'l' :: 'd' :: ']' :: ((intRepr n).data ++ ['[', '/', ']']) := by
    have e : ("[cyan][bold]" ++ intRepr n ++ "[/]").data
        = ("[cyan][bold]".data ++ (intRepr n).data) ++ "[/]".data := rfl
    rw [e]
    simp
  show String.mk (parseTagsL ("[cyan][bold]" ++ intRepr n ++ "[/]").data) = _
  rw [hdata, parseTagsL_cyan_bold _ h1]
  rfl

/-- Folding string concatenation from an arbitrary seed is the seed followed
by the fold from the empty string. -/
theorem str_foldl_append (init : String) (L : List String) :
    init ++ List.foldl (fun r s => r ++ s) "" L = List.foldl (fun r s => r ++ s) init L := by
  induction L generalizing init with
  | nil => simp
  | cons x xs ih =>
    have h0 : List.foldl (fun r s => r ++ s) "" (x :: xs) = List.foldl (fun r s => r ++ s) x xs := by
      simp
    rw [h0, ← ih x, ← String.append_assoc]
    have h1 : List.foldl (fun r s => r ++ s) init (x :: xs)
        = List.foldl (fun r s => r ++ s) (init ++ x) xs := rfl
    rw [h1, ih]

/-- The entry loop of `formatMap`, characterised over the list of formatted
key/value pairs: the body is the concatenation of one
`  "<key>": <value>,` line (with trailing newline) per entry. -/
theorem formatMapEntries_eq (ord : List (String × String)) :
    (ps : GoPairs) →
      formatMapEntries ord ps
        = Option.map
            (fun l => String.join (l.map (fun p => "  \"" ++ p.1 ++ "\": " ++ p.2 ++ ",\n")))
            (pairStrings ord ps)
  | GoPairs.nil => by simp [formatMapEntries, pairStrings, String.join]
  | GoPairs.cons k v rest => by
    have ih := formatMapEntries_eq ord rest
    cases hk : formatValue ord k with
    | none => simp [formatMapEntries, pairStrings, hk]
    | some a =>
      cases hv : formatValue ord v with
      | none => simp [formatMapEntries, pairStrings, hk, hv]
      | some b =>
        cases hr : pairStrings ord rest with
        | none =>
          rw [hr] at ih
          simp only [Option.map_none'] at ih
          simp [formatMapEntries, pairStrings, hk, hv, hr, ih]
        | some t =>
          rw [hr] at ih
          simp only [Option.map_some'] at ih
          simp only [formatMapEntries, pairStrings, hk, hv, hr, ih, Option.map_some',
            List.map_cons, String.join]
          congr 1
          have h2 : List.foldl (fun r s => r ++ s) ""
              (("  \"" ++ a ++ "\": " ++ b ++ ",\n") :: List.map (fun p => "  \"" ++ p.1 ++ "\": " ++ p.2 ++ ",\n") t)
              = List.foldl (fun r s => r ++ s) ("  \"" ++ a ++ "\": " ++ b ++ ",\n") (List.map (fun p => "  \"" ++ p.1 ++ "\": " ++ p.2 ++ ",\n") t) := by
            simp
          rw [h2]
          exact str_foldl_append _ _
termination_by structural ps => ps

/-- Claim C1, counterexample: a `[`-introduced segment with no `]` is NOT
dropped — `parseTags "x[abc"` returns `"xabc"`, keeping the segment text
`abc` verbatim (only the `[` separator is lost), instead of the `"x"` the
claim would require. -/
theorem parseTags_segment_dropped_cex :
    parseTags ("x[abc") = "xabc" ∧ parseTags ("x[abc") ≠ "x" := by decide

/-- Claim C1, amended: a segment introduced by `[` that contains no `]` is
kept verbatim in the output (unstyled, with only the `[` delimiter removed):
for `[`-free leading text `a` and delimiter-free `b`,
`parseTags (a ++ "[" ++ b) = a ++ b`.  (In the source, `continue` skips the
`segments[i] = applyStyling(...)` assignment and `strings.Join` re-emits the
untouched segment.) -/
theorem parseTags_malformed_segment_kept (a b : String)
    (ha : ∀ x ∈ a.data, x ≠ '[') (hb1 : ∀ x ∈ b.data, x ≠ '[')
    (hb2 : ∀ x ∈ b.data, x ≠ ']') :
    parseTags (a ++ "[" ++ b) = a ++ b := by
  have hd : (a ++ "[" ++ b).data = a.data ++ ('[' :: b.data) := by
    have e : (a ++ "[" ++ b).data = (a.data ++ ['[']) ++ b.data := rfl
    rw [e]
    simp
  have h2 : splitOnChar '[' ('[' :: b.data) = [] :: [b.data] := by
    rw [splitOnChar_cons_self, splitOnChar_of_not_mem '[' b.data hb1]
  have hsplit : splitOnChar '[' (a.data ++ ('[' :: b.data)) = a.data :: [b.data] := by
    have h3 := splitOnChar_append '[' a.data ('[' :: b.data) [] ([b.data]) ha h2
    simpa using h3
  show String.mk (parseTagsL (a ++ "[" ++ b).data) = a ++ b
  rw [hd]
  unfold parseTagsL
  rw [hsplit]
  show String.mk (a.data ++ joinL (processSegments [] [b.data])) = a ++ b
  rw [processSegments_of_no_close [] [b.data]
    (by intro seg hseg; rw [List.mem_singleton.mp hseg]; exact hb2)]
  show String.mk (a.data ++ (b.data ++ [])) = a ++ b
  simp only [List.append_nil]
  rfl

/-- Claim C1, witness: the amended statement at `a = "x"`, `b = "abc"`. -/
theorem parseTags_malformed_segment_kept_witness :
    parseTags ("x" ++ "[" ++ "abc") = "x" ++ "abc" :=
  parseTags_malformed_segment_kept ("x") ("abc") (by decide) (by decide) (by decide)

/-- Claim C2, counterexample: `getStyle` is case-sensitive — the upper-case
variant `"RED"` of the registered name `"red"` misses the registry and gets
the fallback `ESC[37m`, not the red code `ESC[31m`. -/
theorem getStyle_case_sensitive_cex :
    getStyle ("RED") = "\x1b[37m" ∧ getStyle ("red") = "\x1b[31m"
    ∧ getStyle ("RED") ≠ getStyle ("red") := by decide

/-- Claim C2, amended: `getStyle` resolves only the exact stored (lowercase)
name and returns the fixed fallback `ESC[37m` for any other letter case;
case-insensitive tag-name resolution instead happens in `parseTags`, which
lower-cases each token before the registry lookup, so a tag in any letter
case performs the same stack operation and yields the same output. -/
theorem case_insensitivity_in_parseTags :
    getStyle ("red") = "\x1b[31m" ∧ getStyle ("RED") = "\x1b[37m"
    ∧ (∀ stack : List String, applyTag stack (("RED").data) = applyTag stack (("red").data))
    ∧ parseTags ("[RED]x") = parseTags ("[red]x") :=
  ⟨by decide, by decide, fun _ => rfl, by decide⟩

/-- Claim C3, counterexample: re-parsing the tag-parser output
`ESC[31mx` does not leave it intact — splitting on `[` and re-joining with
the empty separator deletes the `[` of the escape sequence, producing
`ESC31mx`. -/
theorem reparse_not_intact_cex :
    parseTags ("[red]x") = "\x1b[31mx"
    ∧ parseTags (parseTags ("[red]x")) = "\x1b31mx"
    ∧ parseTags (parseTags ("[red]x")) ≠ parseTags ("[red]x") := by decide

/-- Claim C3, amended: for a string none of whose `[`-introduced segments
contains a `]` (the shape of escape-sequence output without bracketed tag
regions), re-parsing interprets no escape bytes as tags — no styling is
added and no stack operation happens — but the text is NOT left intact: the
output is exactly the input with every `[` character removed. -/
theorem reparse_no_tag_interpretation (s : String)
    (h : ∀ seg ∈ (splitOnChar '[' s.data).tail, ∀ x ∈ seg, x ≠ ']') :
    parseTags s = String.mk (s.data.filter (fun x => x ≠ '[')) := by
  show String.mk (parseTagsL s.data) = _
  congr 1
  unfold parseTagsL
  cases hs : splitOnChar '[' s.data with
  | nil => exact absurd hs (splitOnChar_ne_nil '[' s.data)
  | cons first rest =>
    have hrest : ∀ seg ∈ rest, ∀ x ∈ seg, x ≠ ']' := by
      rw [hs] at h
      simpa using h
    show first ++ joinL (processSegments [] rest) = s.data.filter (fun x => x ≠ '[')
    rw [processSegments_of_no_close [] rest hrest]
    have hj := joinL_splitOnChar '[' s.data
    rw [hs] at hj
    simpa [joinL] using hj

/-- Claim C3, witness: the amended statement at the parser output
`ESC[31mx` (which is `parseTags "[red]x"`). -/
theorem reparse_no_tag_interpretation_witness :
    parseTags ("\x1b[31mx") = String.mk (("\x1b[31mx").data.filter (fun x => x ≠ '[')) :=
  reparse_no_tag_interpretation ("\x1b[31mx") (by decide)

/-- Claim C4: `parseTags "[b][red]x[/][/]y"` renders `x` with the escape
prefix `ESC[1;31m` — both stacked codes joined by `;` in push order — and
`y` with the empty-stack prefix `ESC[m` after the two pops (the other two
prefixes come from the empty text runs after `[b]` and the first `[/]`;
each run is prefixed by the `;`-join of the entire current stack, per
`applyStyling`). -/
theorem parseTags_nesting_join :
    parseTags ("[b][red]x[/][/]y")
      = "\x1b[1m" ++ "\x1b[1;31m" ++ "x" ++ "\x1b[1m" ++ "\x1b[m" ++ "y" := by decide

/-- Claim C5: a close token on the empty stack is a no-op (the stack, a
Lean list, can never have negative length, and `dropLast [] = []` models the
`len(stack) > 0` guard of the Go code), the call does not error
(`parseTags` is a total function), and `parseTags "[/]text"` renders `text`
with the empty-stack prefix `ESC[m`. -/
theorem pop_empty_stack_noop :
    (∀ t : List Char, ((trimBrackets t).map toLowerChar).head? = some '/' → applyTag [] t = [])
    ∧ parseTags ("[/]text") = "\x1b[m" ++ "text" := by
  constructor
  · intro t ht
    simp [applyTag, ht]
  · decide

/-- Claim C5, witness: the close-token clause at the token `/`. -/
theorem pop_empty_stack_noop_witness :
    applyTag [] (("/").data) = [] ∧ parseTags ("[/]text") = "\x1b[m" ++ "text" :=
  ⟨pop_empty_stack_noop.1 (("/").data) (by decide), pop_empty_stack_noop.2⟩

/-- Claim C6: a header token that (after bracket-trimming and
lower-casing) does not begin with `/` and is not a registered style name
leaves the stack unchanged, and `parseTags "[nonexistent]text"` renders
`text` with the empty-stack prefix — the token is not echoed and no error
is signalled. -/
theorem unknown_tag_ignored :
    (∀ (stack : List String) (t : List Char),
      ((trimBrackets t).map toLowerChar).head? ≠ some '/' →
      styleMapFind ((trimBrackets t).map toLowerChar) = none →
      applyTag stack t = stack)
    ∧ parseTags ("[nonexistent]text") = "\x1b[m" ++ "text" := by
  constructor
  · intro stack t h1 h2
    simp only [applyTag]
    rw [if_neg h1, h2]
  · decide

/-- Claim C6, witness: the token clause at stack `["1"]` and token
`nonexistent`. -/
theorem unknown_tag_ignored_witness :
    applyTag ["1"] (("nonexistent").data) = ["1"]
    ∧ parseTags ("[nonexistent]text") = "\x1b[m" ++ "text" :=
  ⟨unknown_tag_ignored.1 (["1"]) (("nonexistent").data) (by decide) (by decide),
   unknown_tag_ignored.2⟩

/-- Claim C7: under every one of the 24 possible iteration orders of the
keyword map, formatting the plain text `Operation success` wraps exactly the
whole word `success` in the green escape `ESC[32m` followed by the reset
`ESC[0m`, leaving `Operation ` untouched, and formatting `successful`
leaves it unchanged (no whole-word match). -/
theorem keyword_highlight_whole_word :
    ((permsOf keywordColors).all (fun ord =>
      (formatStringOrd ord ("Operation success")
          == "Operation " ++ "\x1b[32m" ++ "success" ++ "\x1b[0m")
        && (formatStringOrd ord ("successful") == "successful"))) = true := by decide

/-- Claim C8: for every key-value mapping (in any entry order and for any
keyword-map iteration order), `formatMap` emits `\x7b`, a newline, then per
entry the line `  "<formatted key>": <formatted value>,` with a trailing
comma and newline on every entry line including the last, and finally
`\x7d`; shown concretely for a one-entry map. -/
theorem formatMap_trailing_comma_lines :
    (∀ (ord : List (String × String)) (ps : GoPairs),
      formatMapGo ord ps
        = Option.map
            (fun l => "\x7b\n" ++ String.join (l.map (fun p => "  \"" ++ p.1 ++ "\": " ++ p.2 ++ ",\n")) ++ "\x7d")
            (pairStrings ord ps))
    ∧ formatMapGo keywordColors (GoPairs.cons (GoValue.str ("a")) (GoValue.int 1) GoPairs.nil)
        = some ("\x7b\n" ++ "  \"a\": " ++ "\x1b[36m\x1b[36m1\x1b[m" ++ ",\n" ++ "\x7d") := by
  constructor
  · intro ord ps
    unfold formatMapGo
    rw [formatMapEntries_eq]
    cases pairStrings ord ps <;> simp
  · decide

/-- Claim C9: a nil interface reaching the recursive formatter is fatal —
`formatValue` yields `none` (the Go code panics on
`reflect.TypeOf(nil).Kind()`, with no fallback and no recoverable error
result) — while every concrete, introspectable value (no nil anywhere in
it) formats normally. -/
theorem formatValue_nil_fatal :
    (∀ ord : List (String × String), formatValue ord GoValue.nil = none)
    ∧ (∀ (ord : List (String × String)) (v : GoValue),
        concreteV v = true → (formatValue ord v).isSome = true) :=
  ⟨fun _ => rfl, fun ord v h => formatValue_isSome ord v h⟩

/-- Claim C9, witness: the concrete-value clause at the slice
`[3, true]`. -/
theorem formatValue_nil_fatal_witness :
    concreteV (GoValue.slice (GoList.cons (GoValue.int 3) (GoList.cons (GoValue.bool true) GoList.nil))) = true
    ∧ (formatValue keywordColors (GoValue.slice (GoList.cons (GoValue.int 3) (GoList.cons (GoValue.bool true) GoList.nil)))).isSome = true :=
  ⟨by decide,
   formatValue_nil_fatal.2 keywordColors
     (GoValue.slice (GoList.cons (GoValue.int 3) (GoList.cons (GoValue.bool true) GoList.nil)))
     (by decide)⟩

/-- Claim C10: `bold` is not a registered style name (the registry has
`b`), so the fixed decorative tags of `formatNumber` and `formatBool`
contribute only the color codes: every integer renders as
`ESC[36m ESC[36m <digits> ESC[m` (code 36 only), `true` as
`ESC[32m ESC[32m true ESC[m` and `false` as `ESC[31m ESC[31m false ESC[m`
— the bold code 1 never appears. -/
theorem bold_token_not_registered :
    (∀ n : Int, formatNumber n = "\x1b[36m" ++ ("\x1b[36m" ++ (intRepr n ++ "\x1b[m")))
    ∧ formatBool true = "\x1b[32m" ++ "\x1b[32m" ++ "true" ++ "\x1b[m"
    ∧ formatBool false = "\x1b[31m" ++ "\x1b[31m" ++ "false" ++ "\x1b[m"
    ∧ styleMapFind (("bold").data) = none
    ∧ styleMapFind (("b").data) = some ⟨"b", "1", false⟩ :=
  ⟨formatNumber_eq, by decide, by decide, by decide, by decide⟩
